import Mathlib

/-!
Shallow embedding of the bunnyhop connection-pool core (pool.go, client.go,
config.go) and proofs about its load-balancing selectors, lifecycle and
statistics.  Machine integers (`int64`, `int`) are modelled as `Int` with
explicit wrap-around where it matters; `time.Duration` is `Int` nanoseconds;
the single-connection client facade is modelled by the answers the pool can
observe from it (`IsConnected`, the result of `Close`).  Randomness
(`rand.Intn`) is modelled by an oracle function `randIntn : Nat → Nat`
together with the contract that `randIntn n < n` for `0 < n`; `rand.Intn`
with a non-positive bound, and out-of-range slice indexing, are modelled by
the `crash` outcome (a Go runtime panic).
-/

namespace Bunnyhop

/-- Go `LoadBalanceStrategy` enum; `RoundRobin = iota = 0` is the zero value. -/
inductive LoadBalanceStrategy where
  | roundRobin
  | random
  | leastUsed
  | weightedRoundRobin
deriving DecidableEq, Repr, Inhabited

/-- Observable state of a single-connection `Client` as the pool sees it:
what `IsConnected()` currently answers, what error `Close()` would report,
and whether the pool has asked this client to close. -/
structure ClientState where
  isConnected : Bool
  closeErr : Option String := none
  closeRequested : Bool := false
deriving DecidableEq, Repr, Inhabited

/-- Go struct `NodeConnection` (types file): per-URL record of the pool. -/
structure NodeConnection where
  url : String
  client : Option ClientState := none
  healthy : Bool := false
  weight : Int := 1
  lastUsed : Nat := 0
  totalUsed : Int := 0
  failures : Int := 0
  connecting : Bool := false
deriving DecidableEq, Repr, Inhabited

/-- Go struct `PoolConfig`.  Durations are `int64` nanoseconds; the Go zero
value of each field is the `:=` default here (`LoadBalanceStrategy`'s zero
value is `RoundRobin`, `DebugLog`'s is `false`).  The `Logger` capability is
modelled by its presence. -/
structure PoolConfig where
  urls : List String := []
  reconnectInterval : Int := 0
  maxReconnectAttempt : Int := 0
  healthCheckInterval : Int := 0
  loadBalanceStrategy : LoadBalanceStrategy := .roundRobin
  debugLog : Bool := false
  loggerPresent : Bool := false
deriving DecidableEq, Repr, Inhabited

/-- Go struct `Pool` (pool.go).  The context cancellation and the health
ticker are modelled by flags; `roundRobin`, `totalRequests`, `totalFailures`
are the atomic `int64` counters. -/
structure Pool where
  config : PoolConfig
  nodes : List NodeConnection
  closed : Bool := false
  roundRobin : Int := 0
  totalRequests : Int := 0
  totalFailures : Int := 0
  cancelled : Bool := false
  healthTickerActive : Bool := false
deriving DecidableEq, Repr, Inhabited

/-- `time.Second` in nanoseconds (`time.Duration` is `int64` nanoseconds). -/
def nanosecondsPerSecond : Int := 1000000000

/-- Largest `int64` value, `int64(^uint64(0) >> 1)` in pool.go line 227. -/
def maxInt64 : Int := 2 ^ 63 - 1

/-- Two's-complement wrap-around of `int64` addition. -/
def wrap64 (x : Int) : Int := (x + 2 ^ 63) % 2 ^ 64 - 2 ^ 63

/-- The fixed 10-second poll period of `watchNodeConnection` (pool.go:130). -/
def watchPollSeconds : Nat := 10

/-- Go `getDefaultConfig` (config file embedded in the repository; the copy
the spec selects as normative: `ReconnectInterval` 5s, `MaxReconnectAttempt`
10, `HealthCheckInterval` 30s, default URL list, default logger). -/
def getDefaultConfig (config : PoolConfig) : PoolConfig :=
  let c1 := if config.reconnectInterval = 0 then
      {config with reconnectInterval := 5 * nanosecondsPerSecond} else config
  let c2 := if c1.maxReconnectAttempt = 0 then
      {c1 with maxReconnectAttempt := 10} else c1
  let c3 := if c2.healthCheckInterval = 0 then
      {c2 with healthCheckInterval := 30 * nanosecondsPerSecond} else c2
  let c4 := if c3.urls.length = 0 then
      {c3 with urls := ["amqp://localhost:5672"]} else c3
  if c4.loggerPresent then c4 else {c4 with loggerPresent := true}

/-- Go `NewPool` (pool.go:30): applies `getDefaultConfig`, then builds one
`NodeConnection` per URL, initially unhealthy with no client and weight 1.
`now` stands for `time.Now()`. -/
def newPool (config : PoolConfig) (now : Nat) : Pool :=
  let cfg := getDefaultConfig config
  { config := cfg
    nodes := cfg.urls.map (fun url =>
      { url := url, client := none, healthy := false, weight := 1, lastUsed := now })
    closed := false
    roundRobin := 0
    totalRequests := 0
    totalFailures := 0
    cancelled := false
    healthTickerActive := false }

/-- Slice access `p.nodes[i]` (a `default` is never reached at in-range
indices). -/
def getNode (nodes : List NodeConnection) (i : Nat) : NodeConnection :=
  nodes.getD i default

/-- `node.Client != nil && node.Client.IsConnected()`. -/
def clientConnected (c : Option ClientState) : Bool :=
  match c with
  | some cl => cl.isConnected
  | none => false

/-- The healthy-set predicate of `getHealthyNodes` (pool.go:278):
`node.healthy && node.Client != nil && node.Client.IsConnected()`. -/
def nodeEligible (n : NodeConnection) : Bool :=
  n.healthy && clientConnected n.client

/-- Index-collecting loop of `getHealthyNodes`, starting at index `i`. -/
def healthyIdxsFrom (i : Nat) : List NodeConnection → List Nat
  | [] => []
  | n :: rest =>
    if nodeEligible n then i :: healthyIdxsFrom (i + 1) rest
    else healthyIdxsFrom (i + 1) rest

/-- Go `getHealthyNodes` (pool.go:274), as the list of indices (in index
order) of the nodes passing `nodeEligible`; the Go function returns the
corresponding slice of pointers. -/
def healthyIdxs (nodes : List NodeConnection) : List Nat :=
  healthyIdxsFrom 0 nodes

/-- The error identities of the pool API (`fmt.Errorf` values in the Go
source; the spec names them `ErrPoolClosed`, `ErrNoHealthyNodes`,
`ErrNodeNotFound`). -/
inductive PoolError where
  | poolClosed
  | noHealthyNodes
  | nodeNotFound
deriving DecidableEq, Repr

/-- Outcome of a selection / `GetClient`: the index of the node whose
`Client` is returned, an error, or a Go runtime panic (`crash`). -/
inductive SelectResult where
  | ok (i : Nat)
  | err (e : PoolError)
  | crash
deriving DecidableEq, Repr

/-- Go `getClientRoundRobin` (pool.go:198):
`index := int(atomic.AddInt64(&p.roundRobin, 1)) % len(healthyNodes)`;
`AddInt64` returns the incremented value; Go `%` is truncated (`Int.tmod`);
a negative index (possible after `int64` wrap-around) would panic. -/
def getClientRoundRobin (p : Pool) : SelectResult × Pool :=
  let hs := healthyIdxs p.nodes
  if hs.length = 0 then (.err .noHealthyNodes, p)
  else
    let c := wrap64 (p.roundRobin + 1)
    let q := {p with roundRobin := c}
    let idx := c.tmod (hs.length : Int)
    if h : 0 ≤ idx ∧ idx.toNat < hs.length then (.ok (hs.get ⟨idx.toNat, h.2⟩), q)
    else (.crash, q)

/-- Go `getClientRandom` (pool.go:209): `rand.Intn(len(healthyNodes))`;
the oracle's answer is in range whenever it honours the `rand.Intn`
contract. -/
def getClientRandom (p : Pool) (randIntn : Nat → Nat) : SelectResult × Pool :=
  let hs := healthyIdxs p.nodes
  if hs.length = 0 then (.err .noHealthyNodes, p)
  else
    let r := randIntn hs.length
    if h : r < hs.length then (.ok (hs.get ⟨r, h⟩), p)
    else (.crash, p)

/-- The scan loop of `getClientLeastUsed` (pool.go:229): keep the first node
whose atomically-read `totalUsed` is strictly below the running minimum. -/
def leastUsedGo (nodes : List NodeConnection) :
    List Nat → Int → Option Nat → Option Nat
  | [], _, sel => sel
  | i :: rest, minUsed, sel =>
    let used := (getNode nodes i).totalUsed
    if used < minUsed then leastUsedGo nodes rest used (some i)
    else leastUsedGo nodes rest minUsed sel

/-- Go `getClientLeastUsed` (pool.go:220).  `minUsed` starts at `maxInt64`;
if no node updates the minimum the Go function returns a nil pointer which
the caller dereferences (`crash`). -/
def getClientLeastUsed (p : Pool) : SelectResult × Pool :=
  let hs := healthyIdxs p.nodes
  if hs.length = 0 then (.err .noHealthyNodes, p)
  else
    match leastUsedGo p.nodes hs maxInt64 none with
    | some i => (.ok i, p)
    | none => (.crash, p)

/-- Weight of the node at index `i`. -/
def nodeWeight (nodes : List NodeConnection) (i : Nat) : Int :=
  (getNode nodes i).weight

/-- `totalWeight := Σ node.weight` over the healthy set (pool.go:248). -/
def totalWeight (nodes : List NodeConnection) (hs : List Nat) : Int :=
  (hs.map (nodeWeight nodes)).sum

/-- The accumulation loop of `getClientWeightedRoundRobin` (pool.go:262):
`currentWeight += node.weight; if randWeight < currentWeight return node`. -/
def wrrWalk (nodes : List NodeConnection) (r : Int) :
    List Nat → Int → Option Nat
  | [], _ => none
  | i :: rest, acc =>
    let cur := acc + nodeWeight nodes i
    if r < cur then some i else wrrWalk nodes r rest cur

/-- Go `getClientWeightedRoundRobin` (pool.go:241): fall back to round robin
when the total weight is exactly zero; `rand.Intn(totalWeight)` panics when
`totalWeight < 0`; otherwise walk the healthy set and fall back to the first
healthy node if no prefix sum exceeds the draw. -/
def getClientWeightedRoundRobin (p : Pool) (randIntn : Nat → Nat) :
    SelectResult × Pool :=
  let hs := healthyIdxs p.nodes
  if hs.length = 0 then (.err .noHealthyNodes, p)
  else
    let tw := totalWeight p.nodes hs
    if tw = 0 then getClientRoundRobin p
    else if tw < 0 then (.crash, p)
    else
      match wrrWalk p.nodes ((randIntn tw.toNat : Nat) : Int) hs 0 with
      | some i => (.ok i, p)
      | none => (.ok (hs.headD 0), p)

/-- The usage-stat update of a selected node (pool.go:188):
`atomic.AddInt64(&selectedNode.totalUsed, 1); selectedNode.lastUsed = now`. -/
def bumpUsage (now : Nat) (n : NodeConnection) : NodeConnection :=
  {n with totalUsed := n.totalUsed + 1, lastUsed := now}

/-- Go `GetClient` (pool.go:156): bump `totalRequests`; fail with the
pool-closed error if closed (note: without touching `totalFailures`);
dispatch on the strategy; bump `totalFailures` only when the selector
returned an error; on success update the node's usage stats and return its
client. -/
def getClient (p : Pool) (randIntn : Nat → Nat) (now : Nat) :
    SelectResult × Pool :=
  let q := {p with totalRequests := p.totalRequests + 1}
  if q.closed then (.err .poolClosed, q)
  else
    let sp :=
      match q.config.loadBalanceStrategy with
      | .roundRobin => getClientRoundRobin q
      | .random => getClientRandom q randIntn
      | .leastUsed => getClientLeastUsed q
      | .weightedRoundRobin => getClientWeightedRoundRobin q randIntn
    match sp with
    | (.err e, q2) => (.err e, {q2 with totalFailures := q2.totalFailures + 1})
    | (.crash, q2) => (.crash, q2)
    | (.ok i, q2) =>
      (.ok i, {q2 with nodes := q2.nodes.set i (bumpUsage now (getNode q2.nodes i))})

/-- `m` serial calls of `GetClient`, threading the pool state. -/
def serialGetClient (randIntn : Nat → Nat) (now : Nat) :
    Pool → Nat → List SelectResult × Pool
  | p, 0 => ([], p)
  | p, m + 1 =>
    let rp := getClient p randIntn now
    let rest := serialGetClient randIntn now rp.2 m
    (rp.1 :: rest.1, rest.2)

/-- Go struct `NodeStats`. -/
structure NodeStats where
  url : String
  healthy : Bool
  connected : Bool
  totalUsed : Int
  failures : Int
  weight : Int
  lastUsed : Nat
deriving DecidableEq, Repr

/-- Go struct `PoolStats`. -/
structure PoolStats where
  totalNodes : Nat
  healthyNodes : Nat
  totalRequests : Int
  totalFailures : Int
  nodesStats : List NodeStats
deriving DecidableEq, Repr

/-- The per-node tuple built by `GetStats` (pool.go:352). -/
def nodeStatsOf (n : NodeConnection) : NodeStats :=
  { url := n.url
    healthy := n.healthy
    connected := clientConnected n.client
    totalUsed := n.totalUsed
    failures := n.failures
    weight := n.weight
    lastUsed := n.lastUsed }

/-- Go `GetStats` (pool.go:339).  `HealthyNodes` is incremented when
`nodeStat.Healthy` holds, i.e. from the `healthy` flag alone. -/
def getStats (p : Pool) : PoolStats :=
  { totalNodes := p.nodes.length
    healthyNodes := p.nodes.countP (fun n => n.healthy)
    totalRequests := p.totalRequests
    totalFailures := p.totalFailures
    nodesStats := p.nodes.map nodeStatsOf }

/-- Go `GetHealthyNodeCount` (pool.go:432): counts nodes with
`healthy && Client != nil && Client.IsConnected()`. -/
def getHealthyNodeCount (p : Pool) : Nat :=
  p.nodes.countP nodeEligible

/-- The scan loop of `SetNodeWeight` (pool.go:418): store the weight on the
first node whose URL matches, without validating the value. -/
def setNodeWeightGo (url : String) (w : Int) :
    List NodeConnection → Option (List NodeConnection)
  | [] => none
  | n :: rest =>
    if n.url = url then some ({n with weight := w} :: rest)
    else (setNodeWeightGo url w rest).map (fun ns => n :: ns)

/-- Go `SetNodeWeight` (pool.go:414). -/
def setNodeWeight (p : Pool) (url : String) (w : Int) : Option PoolError × Pool :=
  match setNodeWeightGo url w p.nodes with
  | some ns => (none, {p with nodes := ns})
  | none => (some .nodeNotFound, p)

/-- The effect of `Close` on one node (pool.go:396): a present client is
asked to close (its `Close` makes it disconnected). -/
def closeNodeClient (n : NodeConnection) : NodeConnection :=
  match n.client with
  | some c => {n with client := some {c with closeRequested := true, isConnected := false}}
  | none => n

/-- The close errors one node contributes (pool.go:398). -/
def nodeCloseErrs (n : NodeConnection) : List String :=
  match n.client with
  | some c => c.closeErr.toList
  | none => []

/-- Go `Close` (pool.go:374): a no-op returning nil when already closed;
otherwise set `closed`, cancel the shared context, stop the health ticker,
ask every present client to close, and return the collected errors
aggregated into one error (`none` when there were none). -/
def poolClose (p : Pool) : Option (List String) × Pool :=
  if p.closed then (none, p)
  else
    let errs := (p.nodes.map nodeCloseErrs).flatten
    let q := { p with
      closed := true
      cancelled := true
      healthTickerActive := false
      nodes := p.nodes.map closeNodeClient }
    (if errs.length = 0 then none else some errs, q)

/-- What one iteration of `watchNodeConnection` (pool.go:129) does to the
node: continue polling, or take the reconnect exit. -/
inductive WatchAction where
  | cont
  | reconnect (n : NodeConnection)
deriving DecidableEq, Repr

/-- One ticker iteration of `watchNodeConnection` (pool.go:138): the guard
is `node.Client != nil && !node.Client.IsConnected()`; when it holds the
watcher sets `healthy = false`, spawns `connectToNode` and returns;
otherwise (including when the client is absent) it keeps polling with the
node unchanged. -/
def watchCheck (node : NodeConnection) : WatchAction :=
  match node.client with
  | some c => if !c.isConnected then .reconnect {node with healthy := false} else .cont
  | none => .cont

/-- Result of one `connectToNode` run (pool.go:82): the node afterwards, and
which side effects the run performed (a dial attempt, arming the
`time.AfterFunc` retry timer, spawning a watcher). -/
structure ConnectOutcome where
  node : NodeConnection
  dialAttempted : Bool
  retryTimerArmed : Bool
  retryDelay : Int
  watcherSpawned : Bool
deriving DecidableEq, Repr

/-- Go `connectToNode` (pool.go:82).  The `connecting` guard is the only
gate: when the connect attempt fails the retry timer is armed with
`ReconnectInterval` unconditionally — neither the `closed` flag nor the
cancelled context is consulted (`Client.Connect` ignores the context it is
given), so the armed timer fires and dials again even after `Close`.
`connectSucceeds` is the oracle for the connect attempt, `newClient` the
client it would produce. -/
def connectToNode (p : Pool) (node : NodeConnection) (connectSucceeds : Bool)
    (newClient : ClientState) : ConnectOutcome :=
  if node.connecting then
    { node := node, dialAttempted := false, retryTimerArmed := false
      retryDelay := 0, watcherSpawned := false }
  else if connectSucceeds then
    { node := {node with client := some newClient, healthy := true}
      dialAttempted := true, retryTimerArmed := false, retryDelay := 0
      watcherSpawned := true }
  else
    { node := {node with failures := node.failures + 1, healthy := false}
      dialAttempted := true, retryTimerArmed := true
      retryDelay := p.config.reconnectInterval, watcherSpawned := false }

/-! Concrete states used by witnesses and counterexamples. -/

/-- A connected client with a clean close. -/
def liveClient : ClientState := { isConnected := true }

/-- A healthy node holding a connected client. -/
def liveNode (u : String) : NodeConnection :=
  { url := u, client := some liveClient, healthy := true }

/-- An open two-node round-robin pool with both nodes healthy. -/
def poolTwoLive : Pool :=
  { config := { loadBalanceStrategy := .roundRobin, loggerPresent := true }
    nodes := [liveNode "amqp://n0", liveNode "amqp://n1"] }

/-- An open one-node round-robin pool with its node healthy. -/
def poolOneLive : Pool :=
  { config := { loggerPresent := true }
    nodes := [liveNode "amqp://n0"] }

/-- A pool on which `Close` has already been called. -/
def closedPool : Pool :=
  { config := { loggerPresent := true }
    nodes := [liveNode "amqp://n0"]
    closed := true
    cancelled := true }

/-- A node with no connection attempt in flight. -/
def failNode : NodeConnection := { url := "amqp://down" }

/-- A node whose `healthy` flag is stale: flag set but no client present. -/
def nilClientNode : NodeConnection := { url := "amqp://x", healthy := true, client := none }

/-- A node holding a client that reports closed. -/
def deadClientNode : NodeConnection :=
  { url := "amqp://y", healthy := true, client := some { isConnected := false } }

/-- A client whose `Close()` reports an error. -/
def closeErrClient : ClientState := { isConnected := true, closeErr := some "chan close failed" }

/-- An open running pool with one erroring client and one clientless node. -/
def poolForClose : Pool :=
  { config := { loggerPresent := true }
    nodes := [ { url := "amqp://a", client := some closeErrClient, healthy := true }
             , { url := "amqp://b" } ]
    healthTickerActive := true }

/-- An open two-node weighted-round-robin pool, both nodes healthy. -/
def poolWrr : Pool :=
  { config := { loadBalanceStrategy := .weightedRoundRobin, loggerPresent := true }
    nodes := [liveNode "amqp://n0", liveNode "amqp://n1"] }

/-- `poolWrr` after `SetNodeWeight("amqp://n0", -3)` and
`SetNodeWeight("amqp://n1", 1)`: the healthy weights sum to `-2 < 0`. -/
def poolWrrNeg : Pool :=
  (setNodeWeight (setNodeWeight poolWrr "amqp://n0" (-3)).2 "amqp://n1" 1).2

/-- An open three-node round-robin pool with mixed health: node 0 has no
client, nodes 1 and 2 are healthy, so the healthy set is `[1, 2]`. -/
def poolMixed : Pool :=
  { config := { loadBalanceStrategy := .roundRobin, loggerPresent := true }
    nodes := [ { url := "amqp://m0" }, liveNode "amqp://m1", liveNode "amqp://m2" ] }

/-- An open two-node least-used pool, both nodes healthy with equal usage. -/
def poolLeastUsed : Pool :=
  { config := { loadBalanceStrategy := .leastUsed, loggerPresent := true }
    nodes := [liveNode "amqp://n0", liveNode "amqp://n1"] }

/-- A pool whose single node has `healthy = true` but no client, so the
`GetStats` healthy count and `GetHealthyNodeCount` disagree. -/
def poolStaleHealthy : Pool :=
  { config := { loggerPresent := true }
    nodes := [ { url := "amqp://s", healthy := true, client := none } ] }

/-! Helper lemmas. -/

/-- Field-wise description of `getDefaultConfig`. -/
theorem getDefaultConfig_eq (c : PoolConfig) :
    getDefaultConfig c =
      { urls := if c.urls.length = 0 then ["amqp://localhost:5672"] else c.urls
        reconnectInterval := if c.reconnectInterval = 0 then 5 * nanosecondsPerSecond
          else c.reconnectInterval
        maxReconnectAttempt := if c.maxReconnectAttempt = 0 then 10 else c.maxReconnectAttempt
        healthCheckInterval := if c.healthCheckInterval = 0 then 30 * nanosecondsPerSecond
          else c.healthCheckInterval
        loadBalanceStrategy := c.loadBalanceStrategy
        debugLog := c.debugLog
        loggerPresent := true } := by
  rcases c with ⟨u, ri, mra, hci, lbs, dl, lp⟩
  by_cases h1 : ri = 0 <;> by_cases h2 : mra = 0 <;> by_cases h3 : hci = 0 <;>
    by_cases h4 : u.length = 0 <;> by_cases h5 : lp <;>
    simp [getDefaultConfig, h1, h2, h3, h4, h5]

/-- The config a fresh pool carries is the defaulted config. -/
theorem newPool_config (c : PoolConfig) (now : Nat) :
    (newPool c now).config = getDefaultConfig c := rfl

/-- The `SetNodeWeight` scan succeeds on any list containing a matching URL
and stores the given weight on a matching node. -/
theorem setNodeWeightGo_found (url : String) (w : Int) :
    ∀ l : List NodeConnection, (∃ n ∈ l, n.url = url) →
      ∃ ns, setNodeWeightGo url w l = some ns ∧
        ∃ n ∈ ns, n.url = url ∧ n.weight = w := by
  intro l
  induction l with
  | nil => rintro ⟨n, hn, _⟩; cases hn
  | cons a rest ih =>
    rintro ⟨n, hn, hurl⟩
    by_cases ha : a.url = url
    · exact ⟨{a with weight := w} :: rest, by simp [setNodeWeightGo, ha],
        {a with weight := w}, List.mem_cons_self _ _, ha, rfl⟩
    · have hn2 : n ∈ rest := by
        cases hn with
        | head => exact absurd hurl ha
        | tail _ h => exact h
      obtain ⟨ns, hns, n2, hn2m, h2⟩ := ih ⟨n, hn2, hurl⟩
      exact ⟨a :: ns, by simp [setNodeWeightGo, ha, hns], n2,
        List.mem_cons_of_mem _ hn2m, h2⟩

/-- Members of `healthyIdxsFrom i l` are offsets into `l` shifted by `i`,
and the node found there is eligible. -/
theorem healthyIdxsFrom_mem {j : Nat} :
    ∀ (l : List NodeConnection) (i : Nat), j ∈ healthyIdxsFrom i l →
      i ≤ j ∧ j - i < l.length ∧ nodeEligible (getNode l (j - i)) = true := by
  intro l
  induction l with
  | nil => intro i h; simp [healthyIdxsFrom] at h
  | cons a rest ih =>
    intro i h
    rw [healthyIdxsFrom] at h
    by_cases ha : nodeEligible a
    · rw [if_pos ha] at h
      rcases List.mem_cons.mp h with rfl | h2
      · exact ⟨le_refl _, by simp, by simpa [getNode] using ha⟩
      · obtain ⟨h1, h2l, h3⟩ := ih (i + 1) h2
        have hji : j - i = (j - (i + 1)) + 1 := by omega
        refine ⟨by omega, by simp only [List.length_cons]; omega, ?_⟩
        rw [hji]
        simpa [getNode] using h3
    · rw [if_neg ha] at h
      obtain ⟨h1, h2l, h3⟩ := ih (i + 1) h
      have hji : j - i = (j - (i + 1)) + 1 := by omega
      refine ⟨by omega, by simp only [List.length_cons]; omega, ?_⟩
      rw [hji]
      simpa [getNode] using h3

/-- A healthy-set index is in bounds and designates an eligible node. -/
theorem healthyIdxs_mem {nodes : List NodeConnection} {j : Nat}
    (h : j ∈ healthyIdxs nodes) :
    j < nodes.length ∧ nodeEligible (getNode nodes j) = true := by
  obtain ⟨-, h2, h3⟩ := healthyIdxsFrom_mem nodes 0 h
  constructor
  · simpa using h2
  · simpa using h3

/-- In-bounds `getNode` is a member of the list. -/
theorem getNode_mem {nodes : List NodeConnection} {j : Nat} (h : j < nodes.length) :
    getNode nodes j ∈ nodes := by
  rw [getNode, List.getD_eq_getElem nodes default h]
  exact List.getElem_mem h

/-- When every node is eligible the healthy index scan yields the full
index interval. -/
theorem healthyIdxsFrom_all :
    ∀ (l : List NodeConnection) (i : Nat), (∀ n ∈ l, nodeEligible n = true) →
      healthyIdxsFrom i l = List.range' i l.length := by
  intro l
  induction l with
  | nil => intro i _; simp [healthyIdxsFrom]
  | cons a rest ih =>
    intro i h
    rw [healthyIdxsFrom, if_pos (h a (List.mem_cons_self a rest)),
      ih (i + 1) (fun n hn => h n (List.mem_cons_of_mem a hn))]
    simp [List.range'_succ]

/-- When every node is eligible the healthy set is all indices in order. -/
theorem healthyIdxs_all {nodes : List NodeConnection}
    (h : ∀ n ∈ nodes, nodeEligible n = true) :
    healthyIdxs nodes = List.range nodes.length := by
  rw [healthyIdxs, healthyIdxsFrom_all nodes 0 h, List.range_eq_range']

theorem totalWeight_nil (nodes : List NodeConnection) : totalWeight nodes [] = 0 := rfl

theorem totalWeight_cons (nodes : List NodeConnection) (i : Nat) (rest : List Nat) :
    totalWeight nodes (i :: rest) = nodeWeight nodes i + totalWeight nodes rest := by
  simp [totalWeight]

/-- The weighted walk, started at an accumulator not exceeding the draw,
stops at the first position whose running weight sum strictly exceeds the
draw; that node's weight is strictly positive. -/
theorem wrrWalk_found (nodes : List NodeConnection) (r : Int) :
    ∀ (hs : List Nat) (acc : Int), acc ≤ r → r < acc + totalWeight nodes hs →
      ∃ j, ∃ hj : j < hs.length,
        wrrWalk nodes r hs acc = some (hs.get ⟨j, hj⟩) ∧
        0 < nodeWeight nodes (hs.get ⟨j, hj⟩) ∧
        r < acc + totalWeight nodes (hs.take (j + 1)) ∧
        ∀ k, k < j → acc + totalWeight nodes (hs.take (k + 1)) ≤ r := by
  intro hs
  induction hs with
  | nil =>
    intro acc h1 h2
    rw [totalWeight_nil] at h2
    omega
  | cons i rest ih =>
    intro acc h1 h2
    rw [totalWeight_cons] at h2
    by_cases hcur : r < acc + nodeWeight nodes i
    · refine ⟨0, by simp, ?_, by show (0:Int) < nodeWeight nodes i; omega, ?_,
        fun k hk => absurd hk (Nat.not_lt_zero k)⟩
      · simp only [wrrWalk, if_pos hcur]
        rfl
      · rw [List.take_succ_cons, List.take_zero, totalWeight_cons, totalWeight_nil]
        omega
    · have h1a : acc + nodeWeight nodes i ≤ r := by omega
      have h2a : r < (acc + nodeWeight nodes i) + totalWeight nodes rest := by omega
      obtain ⟨j, hj, heq, hw, hub, hlb⟩ := ih (acc + nodeWeight nodes i) h1a h2a
      refine ⟨j + 1, by simpa using Nat.succ_lt_succ hj, ?_, hw, ?_, ?_⟩
      · simp only [wrrWalk, if_neg hcur]
        exact heq
      · rw [List.take_succ_cons, totalWeight_cons]
        omega
      · intro k hk
        cases k with
        | zero =>
          rw [List.take_succ_cons, List.take_zero, totalWeight_cons, totalWeight_nil]
          omega
        | succ k2 =>
          have := hlb k2 (by omega)
          rw [List.take_succ_cons, totalWeight_cons]
          omega

/-- The least-used scan leaves its selection unchanged when no remaining
node beats the running minimum. -/
theorem leastUsedGo_unchanged (nodes : List NodeConnection) :
    ∀ (l : List Nat) (m : Int) (sel : Option Nat),
      (∀ i ∈ l, ¬ ((getNode nodes i).totalUsed < m)) →
      leastUsedGo nodes l m sel = sel := by
  intro l
  induction l with
  | nil => intro m sel _; rfl
  | cons i rest ih =>
    intro m sel h
    rw [leastUsedGo, if_neg (h i (List.mem_cons_self i rest))]
    exact ih m sel (fun x hx => h x (List.mem_cons_of_mem _ hx))

/-- The least-used scan, when some node beats the running minimum, returns
the first node attaining the minimum `totalUsed` of the scanned list. -/
theorem leastUsedGo_found (nodes : List NodeConnection) :
    ∀ (l : List Nat) (m : Int) (sel : Option Nat),
      (∃ i ∈ l, (getNode nodes i).totalUsed < m) →
      ∃ j, ∃ hj : j < l.length,
        leastUsedGo nodes l m sel = some (l.get ⟨j, hj⟩) ∧
        (getNode nodes (l.get ⟨j, hj⟩)).totalUsed < m ∧
        (∀ k, ∀ hk : k < l.length,
          (getNode nodes (l.get ⟨j, hj⟩)).totalUsed ≤
            (getNode nodes (l.get ⟨k, hk⟩)).totalUsed) ∧
        (∀ k, ∀ hk : k < l.length, k < j →
          (getNode nodes (l.get ⟨j, hj⟩)).totalUsed <
            (getNode nodes (l.get ⟨k, hk⟩)).totalUsed) := by
  intro l
  induction l with
  | nil => rintro m sel ⟨i, hi, -⟩; cases hi
  | cons i rest ih =>
    intro m sel hex
    by_cases hlt : (getNode nodes i).totalUsed < m
    · rw [leastUsedGo, if_pos hlt]
      by_cases hex2 : ∃ x ∈ rest, (getNode nodes x).totalUsed < (getNode nodes i).totalUsed
      · obtain ⟨j, hj, heq, hlt2, hmin, hstrict⟩ :=
          ih (getNode nodes i).totalUsed (some i) hex2
        refine ⟨j + 1, by simpa using Nat.succ_lt_succ hj, heq,
          by show (getNode nodes (rest.get ⟨j, hj⟩)).totalUsed < m; omega, ?_, ?_⟩
        · intro k hk
          cases k with
          | zero => exact le_of_lt hlt2
          | succ k2 => exact hmin k2 (by simpa using Nat.lt_of_succ_lt_succ hk)
        · intro k hk hkj
          cases k with
          | zero => exact hlt2
          | succ k2 =>
            exact hstrict k2 (by simpa using Nat.lt_of_succ_lt_succ hk) (by omega)
      · push_neg at hex2
        rw [leastUsedGo_unchanged nodes rest (getNode nodes i).totalUsed (some i)
          (fun x hx => not_lt.mpr (hex2 x hx))]
        refine ⟨0, by simp, rfl, hlt, ?_, fun k hk hk0 => absurd hk0 (Nat.not_lt_zero k)⟩
        intro k hk
        cases k with
        | zero => exact le_refl _
        | succ k2 =>
          exact hex2 _ (List.get_mem rest k2 (by simpa using Nat.lt_of_succ_lt_succ hk))
    · rw [leastUsedGo, if_neg hlt]
      have hex2 : ∃ x ∈ rest, (getNode nodes x).totalUsed < m := by
        obtain ⟨x, hx, hxlt⟩ := hex
        rcases List.mem_cons.mp hx with rfl | hx2
        · exact absurd hxlt hlt
        · exact ⟨x, hx2, hxlt⟩
      obtain ⟨j, hj, heq, hlt2, hmin, hstrict⟩ := ih m sel hex2
      refine ⟨j + 1, by simpa using Nat.succ_lt_succ hj, heq, hlt2, ?_, ?_⟩
      · intro k hk
        cases k with
        | zero => exact le_of_lt (lt_of_lt_of_le hlt2 (not_lt.mp hlt))
        | succ k2 => exact hmin k2 (by simpa using Nat.lt_of_succ_lt_succ hk)
      · intro k hk hkj
        cases k with
        | zero => exact lt_of_lt_of_le hlt2 (not_lt.mp hlt)
        | succ k2 =>
          exact hstrict k2 (by simpa using Nat.lt_of_succ_lt_succ hk) (by omega)

/-- `int64` addition that stays within range does not wrap. -/
theorem wrap64_eq_self {x : Int} (h0 : -(2 ^ 63) ≤ x) (h1 : x < 2 ^ 63) :
    wrap64 x = x := by
  have h2 : (2:Int) ^ 64 = 2 * 2 ^ 63 := by ring
  rw [wrap64, Int.emod_eq_of_lt (by omega) (by omega)]
  omega

/-- On a nonempty healthy set, with the counter in `int64` range, round
robin succeeds, returning a healthy node and incrementing the counter. -/
theorem getClientRoundRobin_ok (p : Pool)
    (hne : healthyIdxs p.nodes ≠ [])
    (h0 : 0 ≤ p.roundRobin) (h1 : p.roundRobin + 1 < 2 ^ 63) :
    ∃ i ∈ healthyIdxs p.nodes,
      getClientRoundRobin p = (.ok i, {p with roundRobin := p.roundRobin + 1}) := by
  have hlen : ¬ ((healthyIdxs p.nodes).length = 0) := by
    simpa [List.length_eq_zero] using hne
  have hlpos : 0 < (healthyIdxs p.nodes).length := Nat.pos_of_ne_zero hlen
  have hlZ : (0:Int) < ((healthyIdxs p.nodes).length : Int) := by exact_mod_cast hlpos
  have hwr : wrap64 (p.roundRobin + 1) = p.roundRobin + 1 :=
    wrap64_eq_self (by omega) h1
  have hmod : (p.roundRobin + 1).tmod ((healthyIdxs p.nodes).length : Int) =
      (p.roundRobin + 1) % ((healthyIdxs p.nodes).length : Int) :=
    Int.tmod_eq_emod (by omega) (by omega)
  have hge : 0 ≤ (p.roundRobin + 1).tmod ((healthyIdxs p.nodes).length : Int) := by
    rw [hmod]; exact Int.emod_nonneg _ (by omega)
  have hlt : (p.roundRobin + 1).tmod ((healthyIdxs p.nodes).length : Int) <
      ((healthyIdxs p.nodes).length : Int) := by
    rw [hmod]; exact Int.emod_lt_of_pos _ hlZ
  have hcond : 0 ≤ (p.roundRobin + 1).tmod ((healthyIdxs p.nodes).length : Int) ∧
      ((p.roundRobin + 1).tmod ((healthyIdxs p.nodes).length : Int)).toNat <
        (healthyIdxs p.nodes).length := ⟨hge, by omega⟩
  refine ⟨(healthyIdxs p.nodes).get
      ⟨((p.roundRobin + 1).tmod ((healthyIdxs p.nodes).length : Int)).toNat, hcond.2⟩,
    List.get_mem _ _ _, ?_⟩
  simp only [getClientRoundRobin, if_neg hlen, hwr]
  rw [dif_pos hcond]

/-- On any nonempty healthy set, with the counter in `int64` range, round
robin returns exactly the healthy-set entry at position
`(counter + 1) tmod |healthy set|` and increments the counter. -/
theorem getClientRoundRobin_idx (p : Pool)
    (hne : healthyIdxs p.nodes ≠ [])
    (h0 : 0 ≤ p.roundRobin) (h1 : p.roundRobin + 1 < 2 ^ 63) :
    ∃ hlt : ((p.roundRobin + 1).tmod ((healthyIdxs p.nodes).length : Int)).toNat <
        (healthyIdxs p.nodes).length,
      getClientRoundRobin p =
        (.ok ((healthyIdxs p.nodes).get
            ⟨((p.roundRobin + 1).tmod ((healthyIdxs p.nodes).length : Int)).toNat, hlt⟩),
          {p with roundRobin := p.roundRobin + 1}) := by
  have hlen : ¬ ((healthyIdxs p.nodes).length = 0) := by
    simpa [List.length_eq_zero] using hne
  have hlpos : 0 < (healthyIdxs p.nodes).length := Nat.pos_of_ne_zero hlen
  have hlZ : (0:Int) < ((healthyIdxs p.nodes).length : Int) := by exact_mod_cast hlpos
  have hwr : wrap64 (p.roundRobin + 1) = p.roundRobin + 1 :=
    wrap64_eq_self (by omega) h1
  have hmod : (p.roundRobin + 1).tmod ((healthyIdxs p.nodes).length : Int) =
      (p.roundRobin + 1) % ((healthyIdxs p.nodes).length : Int) :=
    Int.tmod_eq_emod (by omega) (by omega)
  have hge : 0 ≤ (p.roundRobin + 1).tmod ((healthyIdxs p.nodes).length : Int) := by
    rw [hmod]; exact Int.emod_nonneg _ (by omega)
  have hlt2 : (p.roundRobin + 1).tmod ((healthyIdxs p.nodes).length : Int) <
      ((healthyIdxs p.nodes).length : Int) := by
    rw [hmod]; exact Int.emod_lt_of_pos _ hlZ
  have hcond : 0 ≤ (p.roundRobin + 1).tmod ((healthyIdxs p.nodes).length : Int) ∧
      ((p.roundRobin + 1).tmod ((healthyIdxs p.nodes).length : Int)).toNat <
        (healthyIdxs p.nodes).length := ⟨hge, by omega⟩
  refine ⟨hcond.2, ?_⟩
  simp only [getClientRoundRobin, if_neg hlen, hwr]
  rw [dif_pos hcond]

/-- On a nonempty healthy set, `Random` succeeds with an in-range draw,
returning a healthy node and leaving the pool unchanged. -/
theorem getClientRandom_ok (p : Pool) (randIntn : Nat → Nat)
    (hf : ∀ n, 0 < n → randIntn n < n)
    (hne : healthyIdxs p.nodes ≠ []) :
    ∃ i ∈ healthyIdxs p.nodes, getClientRandom p randIntn = (.ok i, p) := by
  have hlen : ¬ ((healthyIdxs p.nodes).length = 0) := by
    simpa [List.length_eq_zero] using hne
  have hr := hf _ (Nat.pos_of_ne_zero hlen)
  refine ⟨(healthyIdxs p.nodes).get ⟨randIntn (healthyIdxs p.nodes).length, hr⟩,
    List.get_mem _ _ _, ?_⟩
  simp only [getClientRandom, if_neg hlen]
  rw [dif_pos hr]

/-- On a nonempty healthy set whose nodes have realistic usage counters,
`LeastUsed` succeeds, returning a healthy node and leaving the pool
unchanged. -/
theorem getClientLeastUsed_ok (p : Pool)
    (hne : healthyIdxs p.nodes ≠ [])
    (hu : ∀ n ∈ p.nodes, n.totalUsed < maxInt64) :
    ∃ i ∈ healthyIdxs p.nodes, getClientLeastUsed p = (.ok i, p) := by
  have hlen : ¬ ((healthyIdxs p.nodes).length = 0) := by
    simpa [List.length_eq_zero] using hne
  obtain ⟨i0, hi0⟩ : ∃ i0, i0 ∈ healthyIdxs p.nodes := by
    cases hhs : healthyIdxs p.nodes with
    | nil => exact absurd hhs hne
    | cons a l => exact ⟨a, hhs ▸ List.mem_cons_self a l⟩
  obtain ⟨j, hj, heq, -, -, -⟩ :=
    leastUsedGo_found p.nodes (healthyIdxs p.nodes) maxInt64 none
      ⟨i0, hi0, hu _ (getNode_mem (healthyIdxs_mem hi0).1)⟩
  refine ⟨(healthyIdxs p.nodes).get ⟨j, hj⟩, List.get_mem _ _ _, ?_⟩
  simp only [getClientLeastUsed, if_neg hlen, heq]

/-- On a nonempty healthy set with nonnegative weights (and an in-range
counter for the zero-weight fallback), WeightedRoundRobin succeeds,
returning a healthy node; the counter may or may not be bumped. -/
theorem getClientWeightedRoundRobin_ok (p : Pool) (randIntn : Nat → Nat)
    (hf : ∀ n, 0 < n → randIntn n < n)
    (hwt : ∀ n ∈ p.nodes, 0 ≤ n.weight)
    (hne : healthyIdxs p.nodes ≠ [])
    (h0 : 0 ≤ p.roundRobin) (h1 : p.roundRobin + 1 < 2 ^ 63) :
    ∃ i ∈ healthyIdxs p.nodes, ∃ c : Int,
      getClientWeightedRoundRobin p randIntn = (.ok i, {p with roundRobin := c}) := by
  have hlen : ¬ ((healthyIdxs p.nodes).length = 0) := by
    simpa [List.length_eq_zero] using hne
  have htw : 0 ≤ totalWeight p.nodes (healthyIdxs p.nodes) := by
    apply List.sum_nonneg
    intro x hx
    obtain ⟨i, hi, rfl⟩ := List.mem_map.mp hx
    exact hwt _ (getNode_mem (healthyIdxs_mem hi).1)
  by_cases h0w : totalWeight p.nodes (healthyIdxs p.nodes) = 0
  · obtain ⟨i, hi, heq⟩ := getClientRoundRobin_ok p hne h0 h1
    refine ⟨i, hi, p.roundRobin + 1, ?_⟩
    simp only [getClientWeightedRoundRobin, if_neg hlen, if_pos h0w]
    exact heq
  · have hpos : 0 < totalWeight p.nodes (healthyIdxs p.nodes) := by omega
    have hr : randIntn (totalWeight p.nodes (healthyIdxs p.nodes)).toNat <
        (totalWeight p.nodes (healthyIdxs p.nodes)).toNat := hf _ (by omega)
    obtain ⟨j, hj, heq, -, -, -⟩ :=
      wrrWalk_found p.nodes
        ((randIntn (totalWeight p.nodes (healthyIdxs p.nodes)).toNat : Nat) : Int)
        (healthyIdxs p.nodes) 0 (Int.ofNat_nonneg _) (by omega)
    refine ⟨(healthyIdxs p.nodes).get ⟨j, hj⟩, List.get_mem _ _ _, p.roundRobin, ?_⟩
    simp only [getClientWeightedRoundRobin, if_neg hlen, if_neg h0w,
      if_neg (show ¬ totalWeight p.nodes (healthyIdxs p.nodes) < 0 by omega), heq]

/-- On an empty healthy set every selector fails with the no-healthy-nodes
error, leaving the pool unchanged. -/
theorem selectors_err_empty (p : Pool) (randIntn : Nat → Nat)
    (h : healthyIdxs p.nodes = []) :
    getClientRoundRobin p = (.err .noHealthyNodes, p) ∧
    getClientRandom p randIntn = (.err .noHealthyNodes, p) ∧
    getClientLeastUsed p = (.err .noHealthyNodes, p) ∧
    getClientWeightedRoundRobin p randIntn = (.err .noHealthyNodes, p) := by
  have hlen : (healthyIdxs p.nodes).length = 0 := by simp [h]
  refine ⟨?_, ?_, ?_, ?_⟩ <;>
    simp [getClientRoundRobin, getClientRandom, getClientLeastUsed,
      getClientWeightedRoundRobin, hlen]

/-- Bumping usage statistics does not change a node's eligibility. -/
theorem nodeEligible_bumpUsage (now : Nat) (n : NodeConnection) :
    nodeEligible (bumpUsage now n) = nodeEligible n := rfl

/-- Setting an element preserves an all-elements property when the new
element satisfies it. -/
theorem eligible_set {nodes : List NodeConnection} {i : Nat} {v : NodeConnection}
    (h : ∀ n ∈ nodes, nodeEligible n = true) (hv : nodeEligible v = true) :
    ∀ n ∈ nodes.set i v, nodeEligible n = true := by
  intro n hn
  rcases List.mem_or_eq_of_mem_set hn with h1 | rfl
  · exact h n h1
  · exact hv

/-- On an all-healthy pool with the counter in range, round robin selects
exactly the node at index `(counter + 1) mod N`. -/
theorem getClientRoundRobin_all (p : Pool)
    (helig : ∀ n ∈ p.nodes, nodeEligible n = true)
    (hN : 0 < p.nodes.length)
    (h0 : 0 ≤ p.roundRobin) (h1 : p.roundRobin + 1 < 2 ^ 63) :
    getClientRoundRobin p =
      (.ok ((p.roundRobin.toNat + 1) % p.nodes.length),
       {p with roundRobin := p.roundRobin + 1}) := by
  have hrange : healthyIdxs p.nodes = List.range p.nodes.length := healthyIdxs_all helig
  have hlen : (healthyIdxs p.nodes).length = p.nodes.length := by
    rw [hrange, List.length_range]
  have hlen0 : ¬ ((healthyIdxs p.nodes).length = 0) := by omega
  have hwr : wrap64 (p.roundRobin + 1) = p.roundRobin + 1 :=
    wrap64_eq_self (by omega) h1
  have htm : (p.roundRobin + 1).tmod ((healthyIdxs p.nodes).length : Int) =
      (((p.roundRobin.toNat + 1) % p.nodes.length : Nat) : Int) := by
    have hcast : p.roundRobin + 1 = ((p.roundRobin.toNat + 1 : Nat) : Int) := by omega
    rw [hcast, hlen, Int.tmod_eq_emod (by omega) (by omega)]
    exact_mod_cast rfl
  have hidx : ((p.roundRobin + 1).tmod ((healthyIdxs p.nodes).length : Int)).toNat =
      (p.roundRobin.toNat + 1) % p.nodes.length := by
    rw [htm]; omega
  have hcond : 0 ≤ (p.roundRobin + 1).tmod ((healthyIdxs p.nodes).length : Int) ∧
      ((p.roundRobin + 1).tmod ((healthyIdxs p.nodes).length : Int)).toNat <
        (healthyIdxs p.nodes).length := by
    refine ⟨by rw [htm]; exact Int.ofNat_nonneg _, ?_⟩
    rw [hidx, hlen]
    exact Nat.mod_lt _ hN
  simp only [getClientRoundRobin, if_neg hlen0, hwr]
  rw [dif_pos hcond]
  refine congrArg (fun x => (SelectResult.ok x,
    {p with roundRobin := p.roundRobin + 1})) ?_
  have hget : ∀ (a : Nat) (ha : a < (healthyIdxs p.nodes).length),
      (healthyIdxs p.nodes).get ⟨a, ha⟩ = a := by
    intro a ha
    simp only [List.get_eq_getElem, hrange, List.getElem_range]
  rw [hget, hidx]

/-- One `GetClient` step on an all-healthy round-robin pool: the node at
`(counter + 1) mod N` is returned and the invariants are preserved. -/
theorem rr_step (p : Pool) (f : Nat → Nat) (now : Nat)
    (hstrat : p.config.loadBalanceStrategy = .roundRobin)
    (hclosed : p.closed = false)
    (helig : ∀ n ∈ p.nodes, nodeEligible n = true)
    (hN : 0 < p.nodes.length)
    (h0 : 0 ≤ p.roundRobin) (h1 : p.roundRobin + 1 < 2 ^ 63) :
    (getClient p f now).1 = .ok ((p.roundRobin.toNat + 1) % p.nodes.length) ∧
    (getClient p f now).2.roundRobin = p.roundRobin + 1 ∧
    (getClient p f now).2.closed = false ∧
    (getClient p f now).2.config.loadBalanceStrategy = .roundRobin ∧
    (getClient p f now).2.nodes.length = p.nodes.length ∧
    (∀ n ∈ (getClient p f now).2.nodes, nodeEligible n = true) := by
  have hQQ := getClientRoundRobin_all {p with totalRequests := p.totalRequests + 1}
    helig hN h0 h1
  simp only [hclosed] at hQQ
  have hmlt : (p.roundRobin.toNat + 1) % p.nodes.length < p.nodes.length :=
    Nat.mod_lt _ hN
  have helig2 : ∀ n ∈ p.nodes.set ((p.roundRobin.toNat + 1) % p.nodes.length)
      (bumpUsage now (getNode p.nodes ((p.roundRobin.toNat + 1) % p.nodes.length))),
      nodeEligible n = true := by
    apply eligible_set helig
    rw [nodeEligible_bumpUsage]
    exact helig _ (getNode_mem hmlt)
  refine ⟨?_, ?_, ?_, ?_, ?_, ?_⟩ <;>
    simp [getClient, hclosed, hstrat, hQQ, List.length_set]
  exact helig2

/-- The results of `m` serial `GetClient` calls on an all-healthy
round-robin pool: successive counter values mod the node count. -/
theorem rr_serial (f : Nat → Nat) (now : Nat) :
    ∀ (m : Nat) (p : Pool),
      p.config.loadBalanceStrategy = .roundRobin →
      p.closed = false →
      (∀ n ∈ p.nodes, nodeEligible n = true) →
      0 < p.nodes.length →
      0 ≤ p.roundRobin →
      p.roundRobin + (m : Int) < 2 ^ 63 →
      (serialGetClient f now p m).1 =
        (List.range m).map
          (fun t => SelectResult.ok ((p.roundRobin.toNat + 1 + t) % p.nodes.length)) := by
  intro m
  induction m with
  | zero => intro p _ _ _ _ _ _; rfl
  | succ m ih =>
    intro p hstrat hclosed helig hN h0 hb
    have hstep := rr_step p f now hstrat hclosed helig hN h0 (by omega)
    have hlen2 : 0 < (getClient p f now).2.nodes.length := by
      rw [hstep.2.2.2.2.1]; exact hN
    have hrec := ih (getClient p f now).2
      hstep.2.2.2.1 hstep.2.2.1 hstep.2.2.2.2.2 hlen2
      (by rw [hstep.2.1]; omega) (by rw [hstep.2.1]; push_cast; omega)
    have hcN : (getClient p f now).2.roundRobin.toNat = p.roundRobin.toNat + 1 := by
      rw [hstep.2.1]; omega
    have hhead : (serialGetClient f now p (m + 1)).1 =
        (getClient p f now).1 :: (serialGetClient f now (getClient p f now).2 m).1 := rfl
    rw [hhead, hstep.1, hrec, hcN, hstep.2.2.2.2.1,
      List.range_succ_eq_map, List.map_cons, List.map_map]
    congr 1
    apply List.map_congr_left
    intro a _
    simp only [Function.comp]
    congr 2
    omega

/-- Each residue below `N` appears exactly once among `(s + t) % N` for
`t < N`. -/
theorem count_mod_block (N s j : Nat) (hN : 0 < N) (hj : j < N) :
    ((List.range N).map (fun t => (s + t) % N)).count j = 1 := by
  have hinj : ∀ x ∈ List.range N, ∀ y ∈ List.range N,
      (s + x) % N = (s + y) % N → x = y := by
    intro x hx y hy hxy
    rw [List.mem_range] at hx hy
    have hmx : x % N = y % N := Nat.ModEq.add_left_cancel' s hxy
    rwa [Nat.mod_eq_of_lt hx, Nat.mod_eq_of_lt hy] at hmx
  have hnd : ((List.range N).map (fun t => (s + t) % N)).Nodup :=
    (List.nodup_range N).map_on hinj
  have hsN : s % N < N := Nat.mod_lt s hN
  have hmem : j ∈ (List.range N).map (fun t => (s + t) % N) := by
    refine List.mem_map.mpr
      ⟨if s % N ≤ j then j - s % N else j + N - s % N, ?_, ?_⟩
    · rw [List.mem_range]; split <;> omega
    · rw [Nat.add_mod,
        Nat.mod_eq_of_lt (show (if s % N ≤ j then j - s % N else j + N - s % N) < N by
          split <;> omega)]
      by_cases hle : s % N ≤ j
      · rw [if_pos hle, show s % N + (j - s % N) = j by omega, Nat.mod_eq_of_lt hj]
      · rw [if_neg hle, show s % N + (j + N - s % N) = j + N by omega,
          Nat.add_mod_right, Nat.mod_eq_of_lt hj]
  exact List.count_eq_one_of_mem hnd hmem

/-- Each residue below `N` appears exactly `K` times among `(s + t) % N`
for `t < K * N`. -/
theorem count_mod_blocks (N j : Nat) (hN : 0 < N) (hj : j < N) :
    ∀ (K s : Nat), ((List.range (K * N)).map (fun t => (s + t) % N)).count j = K := by
  intro K
  induction K with
  | zero => intro s; simp
  | succ K ih =>
    intro s
    rw [Nat.succ_mul, List.range_add, List.map_append, List.count_append, ih s,
      List.map_map]
    have hblock : ((List.range N).map
        ((fun t => (s + t) % N) ∘ (fun x => K * N + x))).count j = 1 := by
      have hfeq : ((fun t => (s + t) % N) ∘ (fun x => K * N + x)) =
          (fun t => ((s + K * N) + t) % N) := by
        funext t
        simp only [Function.comp]
        congr 1
        omega
      rw [hfeq]
      exact count_mod_block N (s + K * N) j hN hj
    omega

/-- Counting a selection result through the `ok` constructor. -/
theorem count_ok_map (l : List Nat) (j : Nat) :
    (l.map SelectResult.ok).count (SelectResult.ok j) = l.count j := by
  apply List.count_map_of_injective
  intro a b h
  injection h

/-! Claim theorems. -/

/-- Claim C5: `NewPool` applies the documented defaults to every unset
config field: `ReconnectInterval = 5s`, `HealthCheckInterval = 30s`,
`MaxReconnectAttempt = 10`, `URLs = ["amqp://localhost:5672"]` when the URL
list is empty, and — being the Go zero values of their fields, which
`getDefaultConfig` leaves untouched — `LoadBalanceStrategy = RoundRobin`
and `DebugLog = false`; the all-unset config maps to exactly the documented
default config. -/
theorem c5_newPool_defaults (c : PoolConfig) (now : Nat) :
    (c.reconnectInterval = 0 →
      (newPool c now).config.reconnectInterval = 5 * nanosecondsPerSecond) ∧
    (c.maxReconnectAttempt = 0 → (newPool c now).config.maxReconnectAttempt = 10) ∧
    (c.healthCheckInterval = 0 →
      (newPool c now).config.healthCheckInterval = 30 * nanosecondsPerSecond) ∧
    (c.urls = [] → (newPool c now).config.urls = ["amqp://localhost:5672"]) ∧
    (newPool c now).config.loadBalanceStrategy = c.loadBalanceStrategy ∧
    (newPool c now).config.debugLog = c.debugLog ∧
    (newPool { } now).config =
      { urls := ["amqp://localhost:5672"]
        reconnectInterval := 5 * nanosecondsPerSecond
        maxReconnectAttempt := 10
        healthCheckInterval := 30 * nanosecondsPerSecond
        loadBalanceStrategy := .roundRobin
        debugLog := false
        loggerPresent := true } := by
  refine ⟨?_, ?_, ?_, ?_, ?_, ?_, ?_⟩ <;>
    simp [newPool_config, getDefaultConfig_eq]
  · intro h; simp [h]
  · intro h; simp [h]
  · intro h; simp [h]
  · intro h; simp [h]

/-- Claim C5 witness: the defaults at the all-unset config. -/
theorem c5_witness :
    (newPool { } 0).config.reconnectInterval = 5 * nanosecondsPerSecond ∧
    (newPool { } 0).config.maxReconnectAttempt = 10 ∧
    (newPool { } 0).config.healthCheckInterval = 30 * nanosecondsPerSecond ∧
    (newPool { } 0).config.urls = ["amqp://localhost:5672"] := by
  have h := c5_newPool_defaults { } 0
  exact ⟨h.1 rfl, h.2.1 rfl, h.2.2.1 rfl, h.2.2.2.1 rfl⟩

/-- Claim C4 (code-bug evaluation): on a failed connect attempt the node's
failure counter is incremented and `healthy` cleared, but the
`time.AfterFunc` retry timer is armed — and the retried attempt would dial —
even though the pool is closed and its context cancelled: `connectToNode`
consults only `node.connecting`, never the `closed` flag, and
`Client.Connect` ignores the cancelled context it is handed. -/
theorem c4_retry_after_close :
    (connectToNode closedPool failNode false liveClient).node.failures =
      failNode.failures + 1 ∧
    (connectToNode closedPool failNode false liveClient).node.healthy = false ∧
    (connectToNode closedPool failNode false liveClient).retryTimerArmed = true ∧
    (connectToNode closedPool failNode false liveClient).dialAttempted = true ∧
    closedPool.closed = true ∧ closedPool.cancelled = true := by
  decide

/-- Claim C6 counterexample: on a node whose client is absent, a watcher
iteration does not take the set-unhealthy-and-reconnect exit the claim
demands — the Go guard `node.Client != nil && !node.Client.IsConnected()`
requires a present client, so the watcher just keeps polling. -/
theorem c6_counterexample :
    ¬ ((nilClientNode.client = none ∨
         (∃ c, nilClientNode.client = some c ∧ c.isConnected = false)) →
       watchCheck nilClientNode = .reconnect {nilClientNode with healthy := false}) := by
  intro h
  exact absurd (h (Or.inl rfl)) (by decide)

/-- Claim C6 (amended): each iteration of a node's Liveness Watcher (every
10 seconds) checks the node: if the client is present and reports closed, it
sets `healthy = false`, invokes the Connector asynchronously, and exits;
otherwise — including when the client is absent — it leaves the node
unchanged and continues polling. -/
theorem c6_watch_iteration (n : NodeConnection) :
    watchPollSeconds = 10 ∧
    (∀ c, n.client = some c → c.isConnected = false →
      watchCheck n = .reconnect {n with healthy := false}) ∧
    (n.client = none → watchCheck n = .cont) ∧
    (∀ c, n.client = some c → c.isConnected = true → watchCheck n = .cont) := by
  refine ⟨rfl, ?_, ?_, ?_⟩
  · intro c hc hdead
    simp [watchCheck, hc, hdead]
  · intro hc
    simp [watchCheck, hc]
  · intro c hc hlive
    simp [watchCheck, hc, hlive]

/-- Claim C6 witness: the dead-client node takes the reconnect exit, the
clientless node keeps polling. -/
theorem c6_witness :
    watchCheck deadClientNode = .reconnect {deadClientNode with healthy := false} ∧
    watchCheck nilClientNode = .cont :=
  ⟨(c6_watch_iteration deadClientNode).2.1 { isConnected := false } rfl rfl,
   (c6_watch_iteration nilClientNode).2.2.1 rfl⟩

/-- Claim C7: `Close` is idempotent.  The first call sets the closed flag,
cancels the shared token, stops the health ticker, asks every present client
to close, and returns the per-node close errors aggregated into a single
error (`none` exactly when no client reported one); every second and later
call is a no-op returning success and leaving the state unchanged. -/
theorem c7_close_idempotent (p : Pool) :
    (p.closed = true → poolClose p = (none, p)) ∧
    (p.closed = false →
      (poolClose p).2.closed = true ∧
      (poolClose p).2.cancelled = true ∧
      (poolClose p).2.healthTickerActive = false ∧
      (∀ n ∈ (poolClose p).2.nodes, ∀ c, n.client = some c → c.closeRequested = true) ∧
      ((poolClose p).1 = none ↔ ∀ n ∈ p.nodes, nodeCloseErrs n = []) ∧
      (∀ es, (poolClose p).1 = some es → es = (p.nodes.map nodeCloseErrs).flatten) ∧
      poolClose (poolClose p).2 = (none, (poolClose p).2)) := by
  constructor
  · intro h
    simp [poolClose, h]
  · intro h
    refine ⟨by simp [poolClose, h], by simp [poolClose, h], by simp [poolClose, h],
      ?_, ?_, ?_, ?_⟩
    · intro n hn c hc
      simp only [poolClose, h, Bool.false_eq_true, if_false] at hn
      simp only [List.mem_map] at hn
      obtain ⟨m, _, hm⟩ := hn
      subst hm
      cases hcl : m.client with
      | none => simp [closeNodeClient, hcl] at hc
      | some cl =>
        simp only [closeNodeClient, hcl, Option.some.injEq] at hc
        rw [← hc]
    · constructor
      · intro he n hn
        simp only [poolClose, h, Bool.false_eq_true, if_false] at he
        split at he
        · rename_i hlen
          rw [List.length_eq_zero] at hlen
          have : nodeCloseErrs n ∈ p.nodes.map nodeCloseErrs := List.mem_map_of_mem _ hn
          rw [List.flatten_eq_nil_iff] at hlen
          exact hlen _ this
        · exact absurd he (by simp)
      · intro hall
        have hnil : (p.nodes.map nodeCloseErrs).flatten = [] := by
          rw [List.flatten_eq_nil_iff]
          intro l hl
          rw [List.mem_map] at hl
          obtain ⟨n, hn, rfl⟩ := hl
          exact hall n hn
        simp [poolClose, h, hnil]
    · intro es hes
      simp only [poolClose, h, Bool.false_eq_true, if_false] at hes
      split at hes
      · exact absurd hes (by simp)
      · exact (Option.some.injEq _ _ ▸ hes).symm
    · have hcl : (poolClose p).2.closed = true := by simp [poolClose, h]
      generalize hq : (poolClose p).2 = q at hcl ⊢
      simp [poolClose, hcl]

/-- Claim C7 witness: closing an open pool flips the closed flag, and a
second `Close` is a no-op returning success. -/
theorem c7_witness :
    (poolClose poolForClose).2.closed = true ∧
    poolClose (poolClose poolForClose).2 = (none, (poolClose poolForClose).2) := by
  have h := (c7_close_idempotent poolForClose).2 rfl
  exact ⟨h.1, h.2.2.2.2.2.2⟩

/-- Claim C1 counterexample: on a closed pool `GetClient` fails with the
pool-closed error but leaves `totalFailures` unchanged, refuting the claim
that the closed path increments `totalFailures`. -/
theorem c1_counterexample :
    (getClient closedPool (fun _ => 0) 0).1 = .err .poolClosed ∧
    ¬ ((getClient closedPool (fun _ => 0) 0).2.totalFailures =
        closedPool.totalFailures + 1) := by
  decide

/-- Claim C1 (amended): every `GetClient` call increments `totalRequests`;
if the pool is closed the call fails with the pool-closed error WITHOUT
touching `totalFailures`; otherwise, if the healthy set (healthy flag,
client present, connected) is empty, the call increments `totalFailures`
and fails with the no-healthy-nodes error; otherwise it returns the client
of a node of the healthy set without touching `totalFailures` — and these
are the only failure cases.  (Stated under the `rand.Intn` contract,
nonnegative node weights, and in-range `int64` counters, which exclude the
Go runtime panics of pool.go lines 204, 227 and 259.) -/
theorem c1_getclient_amended (p : Pool) (randIntn : Nat → Nat) (now : Nat)
    (hf : ∀ n, 0 < n → randIntn n < n)
    (hwt : ∀ n ∈ p.nodes, 0 ≤ n.weight)
    (hu : ∀ n ∈ p.nodes, n.totalUsed < maxInt64)
    (h0 : 0 ≤ p.roundRobin) (h1 : p.roundRobin + 1 < 2 ^ 63) :
    ((getClient p randIntn now).2.totalRequests = p.totalRequests + 1) ∧
    (p.closed = true → (getClient p randIntn now).1 = .err .poolClosed ∧
      (getClient p randIntn now).2.totalFailures = p.totalFailures) ∧
    (p.closed = false → healthyIdxs p.nodes = [] →
      (getClient p randIntn now).1 = .err .noHealthyNodes ∧
      (getClient p randIntn now).2.totalFailures = p.totalFailures + 1) ∧
    (p.closed = false → healthyIdxs p.nodes ≠ [] →
      ∃ i ∈ healthyIdxs p.nodes, (getClient p randIntn now).1 = .ok i ∧
        (getClient p randIntn now).2.totalFailures = p.totalFailures) := by
  by_cases hc : p.closed = true
  · refine ⟨by simp [getClient, hc], fun _ => ⟨by simp [getClient, hc],
      by simp [getClient, hc]⟩, fun hcf => absurd (hc.symm.trans hcf) (by decide),
      fun hcf => absurd (hc.symm.trans hcf) (by decide)⟩
  · have hc2 : p.closed = false := by
      cases hcb : p.closed
      · rfl
      · exact absurd hcb hc
    by_cases hhs : healthyIdxs p.nodes = []
    · have herr := selectors_err_empty {p with totalRequests := p.totalRequests + 1}
        randIntn hhs
      simp only [hc2] at herr
      cases hstrat : p.config.loadBalanceStrategy with
      | roundRobin =>
        refine ⟨?_, ?_, ?_, ?_⟩ <;>
          simp [getClient, hc2, hstrat, herr.1, hhs]
      | random =>
        refine ⟨?_, ?_, ?_, ?_⟩ <;>
          simp [getClient, hc2, hstrat, herr.2.1, hhs]
      | leastUsed =>
        refine ⟨?_, ?_, ?_, ?_⟩ <;>
          simp [getClient, hc2, hstrat, herr.2.2.1, hhs]
      | weightedRoundRobin =>
        refine ⟨?_, ?_, ?_, ?_⟩ <;>
          simp [getClient, hc2, hstrat, herr.2.2.2, hhs]
    · cases hstrat : p.config.loadBalanceStrategy with
      | roundRobin =>
        obtain ⟨i, hi, heq⟩ := getClientRoundRobin_ok
          {p with totalRequests := p.totalRequests + 1} hhs h0 h1
        simp only [hc2] at heq
        refine ⟨?_, ?_, ?_, fun _ _ => ⟨i, hi, ?_, ?_⟩⟩ <;>
          simp [getClient, hc2, hstrat, heq, hhs]
      | random =>
        obtain ⟨i, hi, heq⟩ := getClientRandom_ok
          {p with totalRequests := p.totalRequests + 1} randIntn hf hhs
        simp only [hc2] at heq
        refine ⟨?_, ?_, ?_, fun _ _ => ⟨i, hi, ?_, ?_⟩⟩ <;>
          simp [getClient, hc2, hstrat, heq, hhs]
      | leastUsed =>
        obtain ⟨i, hi, heq⟩ := getClientLeastUsed_ok
          {p with totalRequests := p.totalRequests + 1} hhs hu
        simp only [hc2] at heq
        refine ⟨?_, ?_, ?_, fun _ _ => ⟨i, hi, ?_, ?_⟩⟩ <;>
          simp [getClient, hc2, hstrat, heq, hhs]
      | weightedRoundRobin =>
        obtain ⟨i, hi, c, heq⟩ := getClientWeightedRoundRobin_ok
          {p with totalRequests := p.totalRequests + 1} randIntn hf hwt hhs h0 h1
        simp only [hc2] at heq
        refine ⟨?_, ?_, ?_, fun _ _ => ⟨i, hi, ?_, ?_⟩⟩ <;>
          simp [getClient, hc2, hstrat, heq, hhs]

/-- Claim C1 witness: on an open one-node healthy pool the call succeeds on
a healthy-set node and leaves `totalFailures` unchanged. -/
theorem c1_witness :
    ∃ i ∈ healthyIdxs poolOneLive.nodes,
      (getClient poolOneLive (fun _ => 0) 0).1 = .ok i ∧
      (getClient poolOneLive (fun _ => 0) 0).2.totalFailures =
        poolOneLive.totalFailures :=
  (c1_getclient_amended poolOneLive (fun _ => 0) 0 (fun _ h => h) (by decide)
    (by decide) (by decide) (by decide)).2.2.2 rfl (by decide)

/-- Claim C9: `SetNodeWeight` stores any integer weight on a matching node
without validation (zero and negative included), and on a pool whose healthy
weights sum to a negative number (`poolWrrNeg`, built by two `SetNodeWeight`
calls) a `GetClient` under the WeightedRoundRobin policy panics: only a
total weight of exactly zero takes the RoundRobin fallback, and
`rand.Intn` requires a positive bound. -/
theorem c9_weight_unvalidated_wrr_crash :
    (∀ (p : Pool) (url : String) (w : Int),
      (∃ n ∈ p.nodes, n.url = url) →
      (setNodeWeight p url w).1 = none ∧
      ∃ n ∈ (setNodeWeight p url w).2.nodes, n.url = url ∧ n.weight = w) ∧
    totalWeight poolWrrNeg.nodes (healthyIdxs poolWrrNeg.nodes) < 0 ∧
    (getClient poolWrrNeg (fun _ => 0) 0).1 = .crash := by
  refine ⟨?_, by decide, by decide⟩
  intro p url w hexu
  obtain ⟨ns, hns, hn⟩ := setNodeWeightGo_found url w p.nodes hexu
  constructor
  · simp [setNodeWeight, hns]
  · simpa [setNodeWeight, hns] using hn

/-- Claim C9 witness: a negative weight is stored as-is. -/
theorem c9_witness :
    (setNodeWeight poolWrr "amqp://n0" (-5)).1 = none ∧
    ∃ n ∈ (setNodeWeight poolWrr "amqp://n0" (-5)).2.nodes,
      n.url = "amqp://n0" ∧ n.weight = -5 :=
  c9_weight_unvalidated_wrr_crash.1 poolWrr "amqp://n0" (-5)
    ⟨liveNode "amqp://n0", by decide, rfl⟩

/-- Claim C2: under the RoundRobin policy, on any open pool with a
nonempty healthy set, each successful `GetClient` returns the healthy-set
node at position `(atomically incremented pool counter) mod |healthy set|`
(Go truncated `%`, indexing the healthy subset in node-index order);
consequently, on a pool of `N` permanently-healthy nodes with no membership
changes, among `K * N` consecutive serial `GetClient` returns each node is
returned exactly `K` times.  (Stated with the `int64` counter inside its
value range over the window.) -/
theorem c2_round_robin_fairness (p : Pool) (f : Nat → Nat) (now K j : Nat)
    (hstrat : p.config.loadBalanceStrategy = .roundRobin)
    (hclosed : p.closed = false)
    (h0 : 0 ≤ p.roundRobin)
    (h1 : p.roundRobin + 1 < 2 ^ 63) :
    (healthyIdxs p.nodes ≠ [] →
      ∃ hlt : ((p.roundRobin + 1).tmod ((healthyIdxs p.nodes).length : Int)).toNat <
          (healthyIdxs p.nodes).length,
        (getClient p f now).1 = .ok ((healthyIdxs p.nodes).get
          ⟨((p.roundRobin + 1).tmod ((healthyIdxs p.nodes).length : Int)).toNat, hlt⟩)) ∧
    ((∀ n ∈ p.nodes, nodeEligible n = true) → 0 < p.nodes.length →
      p.roundRobin + ((K * p.nodes.length : Nat) : Int) < 2 ^ 63 →
      j < p.nodes.length →
      ((serialGetClient f now p (K * p.nodes.length)).1.count (.ok j)) = K) := by
  constructor
  · intro hne
    obtain ⟨hlt, heq⟩ := getClientRoundRobin_idx
      {p with totalRequests := p.totalRequests + 1} hne h0 h1
    simp only [hclosed] at heq
    refine ⟨hlt, ?_⟩
    simp [getClient, hclosed, hstrat, heq]
  · intro helig hN hb hj
    rw [rr_serial f now (K * p.nodes.length) p hstrat hclosed helig hN h0 hb]
    have hmm : (List.range (K * p.nodes.length)).map
        (fun t => SelectResult.ok ((p.roundRobin.toNat + 1 + t) % p.nodes.length)) =
        ((List.range (K * p.nodes.length)).map
          (fun t => (p.roundRobin.toNat + 1 + t) % p.nodes.length)).map
          SelectResult.ok := by
      rw [List.map_map]
      rfl
    rw [hmm, count_ok_map,
      count_mod_blocks p.nodes.length j hN hj K (p.roundRobin.toNat + 1)]

/-- Claim C2 witness: on the mixed-health three-node pool (healthy set
`[1, 2]`) the first call returns the healthy-set entry at position
`(0 + 1) mod 2 = 1`, i.e. node 2 — indexing the healthy subset, not the
node list; and on the all-healthy two-node pool, over `2 * 2` serial calls
node `0` is returned exactly twice. -/
theorem c2_witness :
    (∃ hlt : ((poolMixed.roundRobin + 1).tmod
          ((healthyIdxs poolMixed.nodes).length : Int)).toNat <
        (healthyIdxs poolMixed.nodes).length,
      (getClient poolMixed (fun _ => 0) 0).1 = .ok ((healthyIdxs poolMixed.nodes).get
        ⟨((poolMixed.roundRobin + 1).tmod
          ((healthyIdxs poolMixed.nodes).length : Int)).toNat, hlt⟩)) ∧
    ((serialGetClient (fun _ => 0) 0 poolTwoLive
        (2 * poolTwoLive.nodes.length)).1.count (.ok 0)) = 2 :=
  ⟨(c2_round_robin_fairness poolMixed (fun _ => 0) 0 2 0 rfl rfl (by decide)
      (by decide)).1 (by decide),
   (c2_round_robin_fairness poolTwoLive (fun _ => 0) 0 2 0 rfl rfl (by decide)
      (by decide)).2 (by decide) (by decide) (by decide) (by decide)⟩

/-- Claim C3: WeightedRoundRobin selection sums the weights over the
healthy set; a zero total falls back to RoundRobin; otherwise, with the
uniform draw `r` in `[0, totalWeight)` supplied by `rand.Intn`, it returns
the first healthy node in index order whose running weight sum strictly
exceeds `r` — a node of weight `0` is never the one selected. -/
theorem c3_weighted_round_robin (p : Pool) (randIntn : Nat → Nat)
    (hf : ∀ n, 0 < n → randIntn n < n)
    (hne : healthyIdxs p.nodes ≠ []) :
    (totalWeight p.nodes (healthyIdxs p.nodes) = 0 →
      getClientWeightedRoundRobin p randIntn = getClientRoundRobin p) ∧
    (0 < totalWeight p.nodes (healthyIdxs p.nodes) →
      ∃ j, ∃ hj : j < (healthyIdxs p.nodes).length,
        (getClientWeightedRoundRobin p randIntn).1 =
          .ok ((healthyIdxs p.nodes).get ⟨j, hj⟩) ∧
        ((randIntn (totalWeight p.nodes (healthyIdxs p.nodes)).toNat : Nat) : Int) <
          totalWeight p.nodes ((healthyIdxs p.nodes).take (j + 1)) ∧
        (∀ k, k < j →
          totalWeight p.nodes ((healthyIdxs p.nodes).take (k + 1)) ≤
            ((randIntn (totalWeight p.nodes (healthyIdxs p.nodes)).toNat : Nat) : Int)) ∧
        nodeWeight p.nodes ((healthyIdxs p.nodes).get ⟨j, hj⟩) ≠ 0) := by
  have hlen : ¬ ((healthyIdxs p.nodes).length = 0) := by
    simpa [List.length_eq_zero] using hne
  constructor
  · intro h0
    simp only [getClientWeightedRoundRobin, if_neg hlen, if_pos h0]
  · intro hpos
    have hr : randIntn (totalWeight p.nodes (healthyIdxs p.nodes)).toNat <
        (totalWeight p.nodes (healthyIdxs p.nodes)).toNat := hf _ (by omega)
    have hrI : ((randIntn (totalWeight p.nodes (healthyIdxs p.nodes)).toNat : Nat) : Int) <
        totalWeight p.nodes (healthyIdxs p.nodes) := by omega
    obtain ⟨j, hj, heq, hwpos, hub, hlb⟩ :=
      wrrWalk_found p.nodes
        ((randIntn (totalWeight p.nodes (healthyIdxs p.nodes)).toNat : Nat) : Int)
        (healthyIdxs p.nodes) 0 (Int.ofNat_nonneg _) (by omega)
    refine ⟨j, hj, ?_, by omega, ?_, ?_⟩
    · simp only [getClientWeightedRoundRobin, if_neg hlen,
        if_neg (show ¬ totalWeight p.nodes (healthyIdxs p.nodes) = 0 by omega),
        if_neg (show ¬ totalWeight p.nodes (healthyIdxs p.nodes) < 0 by omega), heq]
    · intro k hk
      have := hlb k hk
      omega
    · exact (ne_of_lt hwpos).symm

/-- Claim C3 witness: on the two-node weighted pool with weights `{1, 1}`
and draw `0`, the first node is selected and its prefix sum `1` exceeds the
draw. -/
theorem c3_witness :
    ∃ j, ∃ hj : j < (healthyIdxs poolWrr.nodes).length,
      (getClientWeightedRoundRobin poolWrr (fun _ => 0)).1 =
        .ok ((healthyIdxs poolWrr.nodes).get ⟨j, hj⟩) ∧
      ((((fun _ => 0) (totalWeight poolWrr.nodes (healthyIdxs poolWrr.nodes)).toNat : Nat)) : Int) <
        totalWeight poolWrr.nodes ((healthyIdxs poolWrr.nodes).take (j + 1)) ∧
      (∀ k, k < j →
        totalWeight poolWrr.nodes ((healthyIdxs poolWrr.nodes).take (k + 1)) ≤
          ((((fun _ => 0) (totalWeight poolWrr.nodes (healthyIdxs poolWrr.nodes)).toNat : Nat)) : Int)) ∧
      nodeWeight poolWrr.nodes ((healthyIdxs poolWrr.nodes).get ⟨j, hj⟩) ≠ 0 :=
  (c3_weighted_round_robin poolWrr (fun _ => 0) (fun _ h => h) (by decide)).2 (by decide)

/-- Claim C8: under the LeastUsed policy `GetClient` returns the healthy
node whose `totalUsed` is smallest, and among the healthy nodes attaining
the minimum the one earliest in index order is returned (every strictly
earlier healthy node has strictly larger `totalUsed`). -/
theorem c8_least_used (p : Pool) (randIntn : Nat → Nat) (now : Nat)
    (hstrat : p.config.loadBalanceStrategy = .leastUsed)
    (hclosed : p.closed = false)
    (hne : healthyIdxs p.nodes ≠ [])
    (hu : ∀ n ∈ p.nodes, n.totalUsed < maxInt64) :
    ∃ j, ∃ hj : j < (healthyIdxs p.nodes).length,
      (getClient p randIntn now).1 = .ok ((healthyIdxs p.nodes).get ⟨j, hj⟩) ∧
      (∀ k, ∀ hk : k < (healthyIdxs p.nodes).length,
        (getNode p.nodes ((healthyIdxs p.nodes).get ⟨j, hj⟩)).totalUsed ≤
          (getNode p.nodes ((healthyIdxs p.nodes).get ⟨k, hk⟩)).totalUsed) ∧
      (∀ k, ∀ hk : k < (healthyIdxs p.nodes).length, k < j →
        (getNode p.nodes ((healthyIdxs p.nodes).get ⟨j, hj⟩)).totalUsed <
          (getNode p.nodes ((healthyIdxs p.nodes).get ⟨k, hk⟩)).totalUsed) := by
  have hlen : ¬ ((healthyIdxs p.nodes).length = 0) := by
    simpa [List.length_eq_zero] using hne
  obtain ⟨i0, hi0⟩ : ∃ i0, i0 ∈ healthyIdxs p.nodes := by
    cases hhs : healthyIdxs p.nodes with
    | nil => exact absurd hhs hne
    | cons a l => exact ⟨a, hhs ▸ List.mem_cons_self a l⟩
  have hex : ∃ i ∈ healthyIdxs p.nodes, (getNode p.nodes i).totalUsed < maxInt64 :=
    ⟨i0, hi0, hu _ (getNode_mem (healthyIdxs_mem hi0).1)⟩
  obtain ⟨j, hj, heq, hltm, hmin, hstrict⟩ :=
    leastUsedGo_found p.nodes (healthyIdxs p.nodes) maxInt64 none hex
  refine ⟨j, hj, ?_, hmin, hstrict⟩
  simp only [getClient, hclosed, hstrat, getClientLeastUsed, hlen, heq,
    Bool.false_eq_true, if_false]

/-- Claim C8 witness: on the two-node least-used pool with equal usage the
first healthy node is returned. -/
theorem c8_witness :
    ∃ j, ∃ hj : j < (healthyIdxs poolLeastUsed.nodes).length,
      (getClient poolLeastUsed (fun _ => 0) 0).1 =
        .ok ((healthyIdxs poolLeastUsed.nodes).get ⟨j, hj⟩) ∧
      (∀ k, ∀ hk : k < (healthyIdxs poolLeastUsed.nodes).length,
        (getNode poolLeastUsed.nodes ((healthyIdxs poolLeastUsed.nodes).get ⟨j, hj⟩)).totalUsed ≤
          (getNode poolLeastUsed.nodes ((healthyIdxs poolLeastUsed.nodes).get ⟨k, hk⟩)).totalUsed) ∧
      (∀ k, ∀ hk : k < (healthyIdxs poolLeastUsed.nodes).length, k < j →
        (getNode poolLeastUsed.nodes ((healthyIdxs poolLeastUsed.nodes).get ⟨j, hj⟩)).totalUsed <
          (getNode poolLeastUsed.nodes ((healthyIdxs poolLeastUsed.nodes).get ⟨k, hk⟩)).totalUsed) :=
  c8_least_used poolLeastUsed (fun _ => 0) 0 rfl rfl (by decide) (by decide)

/-- Claim C10: `GetStats` counts a node as healthy from the `healthy` flag
alone, while `GetHealthyNodeCount` additionally requires a present,
connected client; hence `GetHealthyNodeCount` never exceeds the
`HealthyNodes` statistic, and on a pool whose node has a stale
`healthy = true` flag with no client the two differ. -/
theorem c10_healthy_counts (pq : Pool) :
    getHealthyNodeCount pq ≤ (getStats pq).healthyNodes ∧
    getHealthyNodeCount poolStaleHealthy < (getStats poolStaleHealthy).healthyNodes := by
  constructor
  · apply List.countP_mono_left
    intro n _ h
    have := (Bool.and_eq_true _ _).mp h
    exact this.1
  · decide

end Bunnyhop
